import Mathlib

/-!
Verification of the media-ingestion core of `facefusion/uis/components/source.py`
and `facefusion/uis/components/target.py` (the "IngestionCoordinator" of the spec).

Paths and reference strings are modelled as lists of characters (`Str`).  The
filesystem and the network are explicit environments: `FS` carries the
predicates the code consults (`os.path.isfile`, `os.path.realpath`,
`os.getcwd`, `tempfile.gettempdir`, `facefusion.filesystem.get_file_size`) and
`Net` carries the HTTP responses (`requests.get`) together with the unique
stems handed out by `tempfile.NamedTemporaryFile`.  Filesystem mutation
(`shutil.copy2`, writing a downloaded body) is explicit state passing; a
Python exception escaping a function is `Except.error ()`.
-/

namespace FaceFusion

/-- A Python string / path: a list of characters. -/
abbrev Str := List Char

/-- Python `str.lower()` (ASCII case folding, which is all the code relies on). -/
def lowerStr (s : Str) : Str := s.map Char.toLower

/-- Python `s.startswith(pre)`. -/
def startswith (s pre : Str) : Bool := pre.isPrefixOf s

/-- Python `str.strip()`: drop whitespace from both ends. -/
def strip (s : Str) : Str :=
  ((s.dropWhile Char.isWhitespace).reverse.dropWhile Char.isWhitespace).reverse

/-- Python `s.split(c)` for a one-character separator (keeps empty pieces). -/
def splitOn (c : Char) : Str → List Str
  | [] => [[]]
  | x :: xs =>
    if x = c then [] :: splitOn c xs
    else
      match splitOn c xs with
      | [] => [[x]]
      | y :: ys => (x :: y) :: ys

/-- Model of `posixpath.join d b` for the two-argument calls the code makes. -/
def joinPath (d b : Str) : Str :=
  if b.head? = some '/' then b
  else if d = [] then b
  else if d.getLast? = some '/' then d ++ b
  else d ++ '/' :: b

/-- Model of `posixpath.basename p`: the suffix after the last `'/'`. -/
def basename (p : Str) : Str := (p.reverse.takeWhile (fun c => c ≠ '/')).reverse

/-- The extension component of `posixpath.splitext p`: everything from the last
dot of the basename on, provided some non-dot character of the basename
stands strictly before that dot (so `".bashrc"` has no extension). -/
def splitextExt (p : Str) : Str :=
  let rb := (basename p).reverse
  let rest := rb.dropWhile (fun c => c ≠ '.')
  if rest ≠ [] ∧ rest.tail.any (fun c => c ≠ '.') = true then
    (rb.takeWhile (fun c => c ≠ '.') ++ ['.']).reverse
  else []

/-- Model of `list(set l)` as the code uses it on reference strings: duplicates removed.
CPython enumerates a `set` in unspecified (hash) order; the model keeps the
first occurrence of each string, which is the one determinization of that
loop.  The accumulator holds the strings already emitted. -/
def dedupFirstAux (seen : List Str) : List Str → List Str
  | [] => []
  | x :: xs =>
    if x ∈ seen then dedupFirstAux seen xs
    else x :: dedupFirstAux (x :: seen) xs

/-- Model of `list(set l)` (see `dedupFirstAux`). -/
def dedupFirst (l : List Str) : List Str := dedupFirstAux [] l

/-- The filesystem facts the code consults, plus the two roots it re-reads on
every containment check.  `realpath`, `cwd` and `tempdir` are resolution
data that creating regular files does not change; `isfile` and `getsize`
are the mutable part. -/
structure FS where
  isfile : Str → Bool
  getsize : Str → Nat
  realpath : Str → Str
  cwd : Str
  tempdir : Str

/-- One `requests.get` answer: whether `raise_for_status` passes, the
`Content-Length` header (absent headers are `none`), and the body size. -/
structure HttpResponse where
  okStatus : Bool
  contentLength : Option Nat
  bodySize : Nat

/-- The network plus the unique stem `tempfile.NamedTemporaryFile` picks for
the temp file of each URL's download. -/
structure Net where
  resp : Str → HttpResponse
  freshStem : Str → Str

/-- Creating/overwriting a regular file of `n` bytes at `p` (the effect of
writing a download body, or of `shutil.copy2` at its destination).
Resolution data is untouched: a fresh regular file is not a symlink. -/
def writeFile (fs : FS) (p : Str) (n : Nat) : FS :=
  { fs with
    isfile := fun q => if q = p then true else fs.isfile q
    getsize := fun q => if q = p then n else fs.getsize q }

/-- Model of `shutil.copy2 src dst`: the destination becomes a regular file with the
source's content; nothing is deleted. -/
def copy2 (fs : FS) (src dst : Str) : FS := writeFile fs dst (fs.getsize src)

/-- Model of `source.is_url` (source.py lines 29–33). -/
def is_url (p : Str) : Bool :=
  startswith (lowerStr p) ("http://".data) || startswith (lowerStr p) ("https://".data)

/-- Model of `source.is_valid_local_file` (source.py lines 35–39): `os.path.isfile`. -/
def is_valid_local_file (fs : FS) (p : Str) : Bool := fs.isfile p

/-- The extension `download_file` / `download_in_chunks` derive from the URL:
`splitext` of the URL, or `".tmp"` when that is empty. -/
def extOrTmp (url : Str) : Str :=
  if splitextExt url = [] then ".tmp".data else splitextExt url

/-- Model of `source.download_file` (source.py lines 41–61): downloads the whole body
with one non-streaming `requests.get` into a `NamedTemporaryFile` under the
system temp directory.  `response.raise_for_status()` raises on a
non-success status and nothing in the callers catches it (`.error ()`). -/
def download_file (fs : FS) (net : Net) (url : Str) : Except Unit (Str × FS) :=
  let ext := extOrTmp url
  let r := net.resp url
  if r.okStatus then
    let path := joinPath fs.tempdir (net.freshStem url ++ ext)
    .ok (path, writeFile fs path r.bodySize)
  else .error ()

/-- Model of `source.process_path` (source.py lines 63–76). -/
def process_path (fs : FS) (net : Net) (p : Str) : Except Unit (Option Str × FS) :=
  if is_url p then (download_file fs net p).map (fun r => (some r.1, r.2))
  else if is_valid_local_file fs p then .ok (some p, fs)
  else .ok (none, fs)

/-- Model of `source.is_in_allowed_dirs` (source.py lines 78–92): the realpath of the
file string-starts with the realpath of the current working directory or of
the system temp directory. -/
def is_in_allowed_dirs (fs : FS) (p : Str) : Bool :=
  startswith (fs.realpath p) (fs.realpath fs.cwd) ||
  startswith (fs.realpath p) (fs.realpath fs.tempdir)

/-- Model of `source.ensure_in_temp` (source.py lines 94–110): keep a contained path,
otherwise `shutil.copy2` it to `tempdir/basename` and return that. -/
def ensure_in_temp (fs : FS) (p : Str) : Str × FS :=
  if is_in_allowed_dirs fs p then (p, fs)
  else
    let np := joinPath fs.tempdir (basename p)
    (np, copy2 fs p np)

/-- The per-reference loop of `source.update` (source.py lines 210–216):
`process_path` then `ensure_in_temp` for each raw path, appending the safe
paths in order.  An exception from a failed download propagates. -/
def processAll (net : Net) : FS → List Str → Except Unit (List Str × FS)
  | fs, [] => .ok ([], fs)
  | fs, p :: rest =>
    match process_path fs net p with
    | .error e => .error e
    | .ok (none, fs') => processAll net fs' rest
    | .ok (some lp, fs') =>
      let sp := ensure_in_temp fs' lp
      match processAll net sp.2 rest with
      | .error e => .error e
      | .ok (ps, fsN) => .ok (sp.1 :: ps, fsN)

/-- Step 1 of `source.update` (source.py line 197): split the textbox on
commas, strip, drop empties. -/
def textboxPaths (t : Str) : List Str :=
  ((splitOn ',' t).map strip).filter (fun p => p ≠ [])

/-- Step 2 of `source.update` (source.py lines 200–204): names of the uploaded
files, dropping `None` entries and empty names. -/
def filePaths (files : List (Option Str)) : List Str :=
  files.filterMap (fun f =>
    match f with
    | some n => if n = [] then none else some n
    | none => none)

/-- Model of `all_raw_paths` of `source.update` (source.py line 207):
`list(set(textbox_paths + file_paths))`. -/
def rawPaths (t : Str) (files : List (Option Str)) : List Str :=
  dedupFirst (textboxPaths t ++ filePaths files)

/-- Model of `source.update` (source.py lines 185–236), up to the `processed_paths` it
hands to the preview/state tail: the tail (lines 218–236) only selects
audio/image previews from this list and stores it, so the paths the update
returns are exactly the members of `processed_paths`. -/
def sourceUpdate (fs : FS) (net : Net) (t : Str) (files : List (Option Str)) :
    Except Unit (List Str × FS) :=
  processAll net fs (rawPaths t files)

/-- Model of `target.FILE_SIZE_LIMIT` (target.py line 15). -/
def FILE_SIZE_LIMIT : Nat := 512 * 1024 * 1024

/-- The chunk bound of `target.download_in_chunks` (target.py line 287). -/
def CHUNK_SIZE : Nat := 1024 * 256

/-- The comparison `get_file_size(...) > FILE_SIZE_LIMIT` (target.py lines 89
and 235) deciding the oversized-video fallback. -/
def oversizedCheck (n : Nat) : Bool := FILE_SIZE_LIMIT < n

/-- The chunks `response.iter_content(chunk_size=CHUNK_SIZE)` yields for a body
of `size` bytes: full `CHUNK_SIZE` chunks and a final remainder.  Structural
recursion on a fuel that starts at `size` (each step consumes ≥ 1 byte). -/
def iterContentAux : Nat → Nat → List Nat
  | _, 0 => []
  | 0, _ + 1 => []
  | fuel + 1, size + 1 =>
    let c := min CHUNK_SIZE (size + 1)
    c :: iterContentAux fuel (size + 1 - c)

/-- The chunk sizes of `iter_content` over an `n`-byte body. -/
def iterContent (n : Nat) : List Nat := iterContentAux n n

/-- One value yielded by the `target.download_in_chunks` generator: a
`(downloaded, total, tmp_path)` tuple after a chunk, or the final path. -/
inductive DLPart where
  | chunk (downloaded total : Nat) (tmpPath : Str)
  | done (path : Str)
deriving DecidableEq

/-- The tuple yields of the download loop (target.py lines 291–295):
`downloaded` accumulates the chunk lengths, empty chunks are skipped by
`if chunk:`. -/
def progressParts (tmp : Str) (total : Nat) : Nat → List Nat → List DLPart
  | _, [] => []
  | acc, c :: cs =>
    if c = 0 then progressParts tmp total acc cs
    else .chunk (acc + c) total tmp :: progressParts tmp total (acc + c) cs

/-- The download folder of `target.download_in_chunks` (target.py
lines 265–274): the stored custom folder when set and non-empty (Python
truthiness of `custom_folder`), else the system temp directory. -/
def dlFolder (fs : FS) (custom : Option Str) : Str :=
  match custom with
  | some f => if f = [] then fs.tempdir else f
  | none => fs.tempdir

/-- The `NamedTemporaryFile` path of `target.download_in_chunks` (target.py
lines 276–290): unique stem plus URL extension, inside the download
folder. -/
def dlTmpPath (fs : FS) (net : Net) (custom : Option Str) (url : Str) : Str :=
  joinPath (dlFolder fs custom) (net.freshStem url ++ extOrTmp url)

/-- Model of `total_size` of `target.download_in_chunks` (target.py lines 283–284):
the Content-Length header, `0` when absent. -/
def dlTotal (net : Net) (url : Str) : Nat := (net.resp url).contentLength.getD 0

/-- Model of `target.download_in_chunks` (target.py lines 259–298) as the list of its
yields plus the filesystem after the writes: downloads into the user-chosen
folder (when set and non-empty) or the system temp directory, yields a
tuple after every chunk and finally the temp path.  `raise_for_status`
raises out of the generator on a non-success status. -/
def download_in_chunks (fs : FS) (net : Net) (custom : Option Str) (url : Str) :
    Except Unit (List DLPart × FS) :=
  let r := net.resp url
  if r.okStatus then
    .ok (progressParts (dlTmpPath fs net custom url) (dlTotal net url) 0
           (iterContent r.bodySize) ++ [.done (dlTmpPath fs net custom url)],
         writeFile fs (dlTmpPath fs net custom url) (iterContent r.bodySize).sum)
  else .error ()

/-- Model of `target.is_in_allowed_dir` (target.py lines 317–324); its body is the same
realpath-startswith test as `source.is_in_allowed_dirs`. -/
def is_in_allowed_dir (fs : FS) (p : Str) : Bool := is_in_allowed_dirs fs p

/-- Model of `target.ensure_in_allowed_dir` (target.py lines 300–315): `""` for a
missing file, the path itself when contained, otherwise a `shutil.copy2`
into `tempdir/basename`. -/
def ensure_in_allowed_dir (fs : FS) (p : Str) : Str × FS :=
  if fs.isfile p = false then ([], fs)
  else if is_in_allowed_dir fs p then (p, fs)
  else
    let np := joinPath fs.tempdir (basename p)
    (np, copy2 fs p np)

/-- The UI-visible yields of `target.update`. -/
inductive TgtEvent where
  | noInput
  | progressPct (pct : Nat)
  | progressBytes (n : Nat)
  | downloadDone
  | invalidFile
  | imageLoaded (p : Str)
  | videoLoaded (p : Str)
  | videoFrameOnly (p : Str)
  | notMedia
deriving DecidableEq

/-- Modelled from the spec: `facefusion.filesystem.is_image` is not under
`src/`; §4.4 classifies purely by extension (images: jpg, jpeg, png, gif,
bmp — the table source.py line 26 also fixes), case-insensitively (P6). -/
def is_image (p : Str) : Bool :=
  ([".jpg", ".jpeg", ".png", ".gif", ".bmp"].map String.data).contains
    (lowerStr (splitextExt p))

/-- Modelled from the spec: `facefusion.filesystem.is_video` is not under
`src/`; §4.4 says video covers "all other recognized container/codec
extensions" and P6 names `mkv`; a representative table is used. -/
def is_video (p : Str) : Bool :=
  ([".mp4", ".mkv", ".avi", ".mov", ".webm"].map String.data).contains
    (lowerStr (splitextExt p))

/-- The drain of the `download_in_chunks` generator inside `target.update`
(target.py lines 180–207): tuples become progress yields (percentage when a
total is known, raw bytes otherwise, per lines 184–196), the final path is
put through `ensure_in_allowed_dir` and acknowledged with a completion
yield.  Returns the yields, the last `local_path`, and the filesystem. -/
def drainParts (fs : FS) (lp : Str) : List DLPart → List TgtEvent × Str × FS
  | [] => ([], lp, fs)
  | .chunk d t _ :: rest =>
    let e := if 0 < t then TgtEvent.progressPct (d * 100 / t) else TgtEvent.progressBytes d
    let r := drainParts fs lp rest
    (e :: r.1, r.2)
  | .done p :: rest =>
    let sp := ensure_in_allowed_dir fs p
    let r := drainParts sp.2 sp.1 rest
    (TgtEvent.downloadDone :: r.1, r.2)

/-- The tail of `target.update` (target.py lines 214–257): classify
`local_path`, store or clear `target_path`, and yield the outcome.  Returns
the yields, the stored target path, and the filesystem. -/
def targetTail (fs : FS) (lp : Str) : List TgtEvent × Option Str × FS :=
  if lp = [] then ([.invalidFile], none, fs)
  else if is_image lp then ([.imageLoaded lp], some lp, fs)
  else if is_video lp then
    if oversizedCheck (fs.getsize lp) then ([.videoFrameOnly lp], some lp, fs)
    else ([.videoLoaded lp], some lp, fs)
  else ([.notMedia], none, fs)

/-- The body of `target.update` from `final_raw_path` on (target.py
lines 166–257): empty input clears the target; a URL is chunk-downloaded
and drained; a local path goes through `ensure_in_allowed_dir`; the tail
classifies. -/
def targetGo (fs : FS) (net : Net) (custom : Option Str) (finalRaw : Str) :
    Except Unit (List TgtEvent × Option Str × FS) :=
  if finalRaw = [] then .ok ([.noInput], none, fs)
  else if is_url finalRaw then
    match download_in_chunks fs net custom finalRaw with
    | .error e => .error e
    | .ok (parts, fs') =>
      let d := drainParts fs' [] parts
      let t := targetTail d.2.2 d.2.1
      .ok (d.1 ++ t.1, t.2.1, t.2.2)
  else
    let sp := ensure_in_allowed_dir fs finalRaw
    let t := targetTail sp.2 sp.1
    .ok (t.1, t.2.1, t.2.2)

/-- Model of `target.update` (target.py lines 144–257): the yields of the generator,
the stored `target_path` (`none` when cleared), and the final filesystem.
`custom` is the stored custom download folder, `file` the uploaded file's
name; the upload is preferred over the textbox (line 164).  The face-store
clearing on entry touches no state modelled here. -/
def targetUpdate (fs : FS) (net : Net) (custom : Option Str)
    (textboxValue : Str) (file : Option Str) :
    Except Unit (List TgtEvent × Option Str × FS) :=
  let textPath := strip textboxValue
  let filePath := match file with | some n => n | none => []
  targetGo fs net custom (if filePath = [] then textPath else filePath)

/-- The paths carried by the media-loaded yields of `target.update`. -/
def loadedPaths (es : List TgtEvent) : List Str :=
  es.filterMap (fun e =>
    match e with
    | .imageLoaded p => some p
    | .videoLoaded p => some p
    | .videoFrameOnly p => some p
    | _ => none)

/-- The `downloaded` components of the progress tuples, in order. -/
def downloadedValues (parts : List DLPart) : List Nat :=
  parts.filterMap (fun e =>
    match e with
    | .chunk d _ _ => some d
    | .done _ => none)

/-- Relation: `g` agrees with `fs` on all resolution data (`realpath`, `cwd`,
`tempdir`): the only filesystem mutations the code performs create regular
files, which leaves this data unchanged. -/
def sameRoots (fs g : FS) : Prop :=
  g.realpath = fs.realpath ∧ g.cwd = fs.cwd ∧ g.tempdir = fs.tempdir

/-- The containment hypothesis C1 needs for the relocation branch: a path the
code places directly inside the temp directory resolves under the temp
directory's resolution (true whenever no symlink sits at that entry). -/
def TempHonest (fs : FS) : Prop :=
  ∀ b : Str, startswith (fs.realpath (joinPath fs.tempdir b)) (fs.realpath fs.tempdir) = true

/-- Containment in the claim's sense (spec §4.3): the resolved path is a
path-prefix descendant of the resolved root — the root itself, or the root
followed by a path separator.  The code's bare `startswith` test accepts
more, e.g. the sibling `/wx.jpg` under the root `/w`. -/
def isDescendant (root p : Str) : Bool :=
  p = root || (root ++ ['/']).isPrefixOf p

/-- The failing input for C1: working directory `/w`, temp `/t`, an identity
resolver, and one existing regular file `/wx.jpg` — a sibling of `/w` whose
name makes its resolved path a string-prefix extension, but not a
descendant, of the resolved working directory. -/
def fsX : FS :=
  { isfile := fun p => decide (p = "/wx.jpg".data)
    getsize := fun _ => 0
    realpath := fun p => p
    cwd := "/w".data
    tempdir := "/t".data }

/-- A concrete environment for witnesses: one local file `a.jpg`, a trivial
resolver, an always-successful network. -/
def fsW1 : FS :=
  { isfile := fun p => decide (p = "a.jpg".data)
    getsize := fun _ => 0
    realpath := fun _ => []
    cwd := "/w".data
    tempdir := "/t".data }

/-- Network for witnesses: every fetch succeeds with an empty body. -/
def netW1 : Net :=
  { resp := fun _ => ⟨true, none, 0⟩
    freshStem := fun _ => "stem".data }

/-- The classification of a reference string (spec §4.1), read off the
branch structure of `source.process_path` (source.py lines 63–76). -/
inductive RefClass where
  | Remote
  | LocalExisting
  | LocalMissing
deriving DecidableEq

/-- The decision `source.process_path` makes about a reference: URL test
first, then the regular-file test. -/
def classify (fs : FS) (p : Str) : RefClass :=
  if is_url p then .Remote
  else if is_valid_local_file fs p then .LocalExisting
  else .LocalMissing

/-- The event shape claim C4 asserts of a successful fetch: one progress
tuple per nonempty chunk of at most `CHUNK_SIZE` bytes, the chunks covering
the whole body, followed by exactly one terminal part with the final path
and nothing after it. -/
def claimFetchShape (parts : List DLPart) (tmp : Str) (total bodyN : Nat) : Prop :=
  ∃ chunks : List Nat, chunks.sum = bodyN ∧ (∀ c ∈ chunks, 0 < c ∧ c ≤ CHUNK_SIZE) ∧
    parts = progressParts tmp total 0 chunks ++ [.done tmp]

/-- Note that `source.download_file` is not a generator: it yields nothing while
downloading (source.py lines 41–61 download the entire body in one
non-streaming request), so its observable event trace is just the terminal
path. -/
def download_file_parts (fs : FS) (net : Net) (url : Str) :
    Except Unit (List DLPart × FS) :=
  (download_file fs net url).map (fun r => ([.done r.1], r.2))

/-- A network whose one resource is a 1 MiB body with a known length. -/
def netW4 : Net :=
  { resp := fun _ => ⟨true, some 1048576, 1048576⟩
    freshStem := fun _ => "x".data }

/-- A network serving a 5-byte body with a known content length of 5. -/
def netW5 : Net :=
  { resp := fun _ => ⟨true, some 5, 5⟩
    freshStem := fun _ => "x".data }

/-- A network on which every fetch fails `raise_for_status`. -/
def netW2 : Net :=
  { resp := fun _ => ⟨false, none, 0⟩
    freshStem := fun _ => "s".data }

/-- A filesystem on which `a.jpg` and `./a.jpg` are two spellings of the same
regular file under the working directory `/w`. -/
def fsW3 : FS :=
  { isfile := fun p => decide (p = "a.jpg".data) || decide (p = "./a.jpg".data)
    getsize := fun _ => 0
    realpath := fun p =>
      if p = "a.jpg".data then "/w/a.jpg".data
      else if p = "./a.jpg".data then "/w/a.jpg".data
      else p
    cwd := "/w".data
    tempdir := "/t".data }

/-! ### source.py -/

/-! ### target.py -/

/-! ### Helper lemmas: paths -/

theorem takeWhile_append_all {p : Char → Bool} :
    ∀ {l₁ l₂ : Str}, (∀ x ∈ l₁, p x = true) →
      (l₁ ++ l₂).takeWhile p = l₁ ++ l₂.takeWhile p := by
  intro l₁
  induction l₁ with
  | nil => intro l₂ _; rfl
  | cons a l ih =>
    intro l₂ h
    have ha : p a = true := h a (List.mem_cons_self a l)
    simp only [List.cons_append, List.takeWhile_cons, ha, if_true]
    rw [ih fun x hx => h x (List.mem_cons_of_mem a hx)]

theorem mem_basename_ne_slash {p : Str} {c : Char} (h : c ∈ basename p) : c ≠ '/' := by
  unfold basename at h
  rw [List.mem_reverse] at h
  have := List.mem_takeWhile_imp h
  simpa using this

theorem basename_of_no_slash {b : Str} (h : '/' ∉ b) : basename b = b := by
  unfold basename
  rw [List.takeWhile_eq_self_iff.2, List.reverse_reverse]
  intro x hx
  rw [List.mem_reverse] at hx
  have : x ≠ '/' := fun he => h (he ▸ hx)
  simpa using this

theorem basename_append_slash {d b : Str} (h : '/' ∉ b) :
    basename (d ++ '/' :: b) = b := by
  unfold basename
  rw [List.reverse_append, List.reverse_cons]
  rw [show b.reverse ++ ['/'] ++ d.reverse = b.reverse ++ ('/' :: d.reverse) by simp]
  rw [takeWhile_append_all (fun x hx => by
    rw [List.mem_reverse] at hx
    have : x ≠ '/' := fun he => h (he ▸ hx)
    simpa using this)]
  simp [List.takeWhile_cons]

theorem basename_joinPath {d b : Str} (h : '/' ∉ b) :
    basename (joinPath d b) = b := by
  unfold joinPath
  by_cases h1 : b.head? = some '/'
  · exfalso; exact h (List.mem_of_mem_head? h1)
  · rw [if_neg h1]
    by_cases h2 : d = []
    · rw [if_pos h2]; exact basename_of_no_slash h
    · rw [if_neg h2]
      by_cases h3 : d.getLast? = some '/'
      · rw [if_pos h3]
        obtain hd : d.dropLast ++ ['/'] = d := List.dropLast_append_getLast? _ h3
        rw [← hd, List.append_assoc]
        exact basename_append_slash h
      · rw [if_neg h3]; exact basename_append_slash h

theorem mem_splitextExt_ne_slash {p : Str} {c : Char} (h : c ∈ splitextExt p) :
    c ≠ '/' := by
  unfold splitextExt at h
  simp only at h
  split at h
  · rw [List.mem_reverse, List.mem_append] at h
    rcases h with h | h
    · have hmem : c ∈ (basename p).reverse := (List.takeWhile_sublist _).subset h
      exact mem_basename_ne_slash (List.mem_reverse.1 hmem)
    · simp at h; subst h; decide
  · simp at h

theorem no_slash_splitextExt (p : Str) : '/' ∉ splitextExt p :=
  fun h => mem_splitextExt_ne_slash h rfl

theorem no_slash_extOrTmp (url : Str) : '/' ∉ extOrTmp url := by
  unfold extOrTmp
  by_cases h : splitextExt url = []
  · rw [if_pos h]; decide
  · rw [if_neg h]; exact no_slash_splitextExt url

/-! ### Helper lemmas: textual dedup -/

theorem mem_dedupFirstAux {seen : List Str} {l : List Str} {x : Str} :
    x ∈ dedupFirstAux seen l ↔ x ∈ l ∧ x ∉ seen := by
  induction l generalizing seen with
  | nil => simp [dedupFirstAux]
  | cons a l ih =>
    unfold dedupFirstAux
    by_cases ha : a ∈ seen
    · rw [if_pos ha, ih]
      constructor
      · rintro ⟨h1, h2⟩; exact ⟨List.mem_cons_of_mem a h1, h2⟩
      · rintro ⟨h1, h2⟩
        rcases List.mem_cons.1 h1 with rfl | h1
        · exact absurd ha h2
        · exact ⟨h1, h2⟩
    · rw [if_neg ha]
      constructor
      · intro h
        rcases List.mem_cons.1 h with rfl | h
        · exact ⟨List.mem_cons_self _ _, ha⟩
        · rcases ih.1 h with ⟨h1, h2⟩
          exact ⟨List.mem_cons_of_mem a h1, fun hs => h2 (List.mem_cons_of_mem a hs)⟩
      · rintro ⟨h1, h2⟩
        rcases List.mem_cons.1 h1 with rfl | h1
        · exact List.mem_cons_self _ _
        · by_cases hx : x = a
          · subst hx; exact List.mem_cons_self _ _
          · exact List.mem_cons_of_mem a (ih.2 ⟨h1, by
              intro hs
              rcases List.mem_cons.1 hs with h | h
              · exact hx h
              · exact h2 h⟩)

theorem nodup_dedupFirstAux {seen : List Str} {l : List Str} :
    (dedupFirstAux seen l).Nodup := by
  induction l generalizing seen with
  | nil => exact List.nodup_nil
  | cons a l ih =>
    unfold dedupFirstAux
    by_cases ha : a ∈ seen
    · rw [if_pos ha]; exact ih
    · rw [if_neg ha]
      refine List.nodup_cons.2 ⟨fun h => ?_, ih⟩
      exact (mem_dedupFirstAux.1 h).2 (List.mem_cons_self _ _)

theorem sublist_dedupFirstAux {seen : List Str} {l : List Str} :
    (dedupFirstAux seen l).Sublist l := by
  induction l generalizing seen with
  | nil => exact List.Sublist.refl _
  | cons a l ih =>
    unfold dedupFirstAux
    by_cases ha : a ∈ seen
    · rw [if_pos ha]; exact List.Sublist.cons a ih
    · rw [if_neg ha]; exact List.Sublist.cons₂ a ih

theorem dedupFirst_nodup (l : List Str) : (dedupFirst l).Nodup :=
  nodup_dedupFirstAux

theorem dedupFirst_sublist (l : List Str) : (dedupFirst l).Sublist l :=
  sublist_dedupFirstAux

theorem mem_dedupFirst {l : List Str} {x : Str} : x ∈ dedupFirst l ↔ x ∈ l := by
  unfold dedupFirst
  rw [mem_dedupFirstAux]
  simp

/-! ### Helper lemmas: chunking -/

theorem iterContentAux_sum :
    ∀ fuel size : Nat, size ≤ fuel → (iterContentAux fuel size).sum = size := by
  intro fuel
  induction fuel with
  | zero =>
    intro size h
    interval_cases size
    rfl
  | succ f ih =>
    intro size h
    match size with
    | 0 => rfl
    | s + 1 =>
      unfold iterContentAux
      simp only [List.sum_cons]
      have hc1 : 1 ≤ min CHUNK_SIZE (s + 1) := by
        refine le_min ?_ (by omega)
        unfold CHUNK_SIZE; omega
      have hcle : min CHUNK_SIZE (s + 1) ≤ s + 1 := min_le_right _ _
      rw [ih (s + 1 - min CHUNK_SIZE (s + 1)) (by omega)]
      omega

theorem iterContent_sum (n : Nat) : (iterContent n).sum = n :=
  iterContentAux_sum n n le_rfl

theorem iterContentAux_mem :
    ∀ fuel size : Nat, ∀ c ∈ iterContentAux fuel size, 0 < c ∧ c ≤ CHUNK_SIZE := by
  intro fuel
  induction fuel with
  | zero =>
    intro size c hc
    match size with
    | 0 => simp [iterContentAux] at hc
    | _ + 1 => simp [iterContentAux] at hc
  | succ f ih =>
    intro size c hc
    match size with
    | 0 => simp [iterContentAux] at hc
    | s + 1 =>
      unfold iterContentAux at hc
      rcases List.mem_cons.1 hc with rfl | hc
      · constructor
        · refine lt_min ?_ (by omega)
          unfold CHUNK_SIZE; omega
        · exact min_le_left _ _
      · exact ih _ c hc

theorem iterContent_mem (n : Nat) : ∀ c ∈ iterContent n, 0 < c ∧ c ≤ CHUNK_SIZE :=
  iterContentAux_mem n n

/-! ### Helper lemmas: progress parts -/

/-- A `progressParts` list contains only `chunk` parts. -/
theorem progressParts_chunks {tmp : Str} {total : Nat} :
    ∀ (chunks : List Nat) (acc : Nat) (e : DLPart), e ∈ progressParts tmp total acc chunks →
      ∃ d, e = .chunk d total tmp := by
  intro chunks
  induction chunks with
  | nil => intro acc e he; simp [progressParts] at he
  | cons c cs ih =>
    intro acc e he
    unfold progressParts at he
    by_cases hc : c = 0
    · rw [if_pos hc] at he; exact ih _ e he
    · rw [if_neg hc] at he
      rcases List.mem_cons.1 he with rfl | he
      · exact ⟨acc + c, rfl⟩
      · exact ih _ e he

theorem progressParts_length {tmp : Str} {total : Nat} :
    ∀ (chunks : List Nat), (∀ c ∈ chunks, 0 < c) →
      ∀ acc, (progressParts tmp total acc chunks).length = chunks.length := by
  intro chunks
  induction chunks with
  | nil => intro _ acc; rfl
  | cons c cs ih =>
    intro h acc
    unfold progressParts
    have hc : ¬c = 0 := Nat.pos_iff_ne_zero.1 (h c (List.mem_cons_self _ _))
    rw [if_neg hc]
    simp only [List.length_cons]
    rw [ih (fun x hx => h x (List.mem_cons_of_mem c hx)) (acc + c)]

theorem downloadedValues_progressParts_ge {tmp : Str} {total : Nat} :
    ∀ (chunks : List Nat) (acc : Nat) (x : Nat),
      x ∈ downloadedValues (progressParts tmp total acc chunks) → acc ≤ x := by
  intro chunks
  induction chunks with
  | nil => intro acc x hx; simp [progressParts, downloadedValues] at hx
  | cons c cs ih =>
    intro acc x hx
    unfold progressParts at hx
    by_cases hc : c = 0
    · rw [if_pos hc] at hx
      have := ih _ x hx
      omega
    · rw [if_neg hc] at hx
      unfold downloadedValues at hx
      rw [List.filterMap_cons] at hx
      simp only at hx
      rcases List.mem_cons.1 hx with rfl | hx
      · omega
      · have := ih (acc + c) x hx
        omega

theorem downloadedValues_progressParts_chain {tmp : Str} {total : Nat} :
    ∀ (chunks : List Nat) (acc : Nat),
      List.Chain' (fun a b => a ≤ b) (downloadedValues (progressParts tmp total acc chunks)) := by
  intro chunks
  induction chunks with
  | nil => intro acc; simp [progressParts, downloadedValues]
  | cons c cs ih =>
    intro acc
    unfold progressParts
    by_cases hc : c = 0
    · rw [if_pos hc]; exact ih acc
    · rw [if_neg hc]
      unfold downloadedValues
      rw [List.filterMap_cons]
      simp only
      rw [List.chain'_cons']
      refine ⟨fun y hy => ?_, ih (acc + c)⟩
      have := downloadedValues_progressParts_ge cs (acc + c) y (List.mem_of_mem_head? hy)
      omega

/-! ### Helper lemmas: filesystem roots and containment -/

theorem sameRoots_refl (fs : FS) : sameRoots fs fs := ⟨rfl, rfl, rfl⟩

theorem sameRoots_trans {fs g h : FS} (h1 : sameRoots fs g) (h2 : sameRoots g h) :
    sameRoots fs h :=
  ⟨h2.1.trans h1.1, h2.2.1.trans h1.2.1, h2.2.2.trans h1.2.2⟩

theorem sameRoots_writeFile (fs : FS) (p : Str) (n : Nat) :
    sameRoots fs (writeFile fs p n) := ⟨rfl, rfl, rfl⟩

theorem sameRoots_copy2 (fs : FS) (src dst : Str) :
    sameRoots fs (copy2 fs src dst) := ⟨rfl, rfl, rfl⟩

theorem is_in_allowed_dirs_congr {fs g : FS} (h : sameRoots fs g) (p : Str) :
    is_in_allowed_dirs g p = is_in_allowed_dirs fs p := by
  unfold is_in_allowed_dirs
  rw [h.1, h.2.1, h.2.2]

theorem ensure_in_temp_allowed {fs g : FS} (hroots : sameRoots fs g)
    (htmp : TempHonest fs) (p : Str) :
    is_in_allowed_dirs fs (ensure_in_temp g p).1 = true ∧
      sameRoots fs (ensure_in_temp g p).2 := by
  unfold ensure_in_temp
  by_cases h : is_in_allowed_dirs g p = true
  · rw [if_pos h]
    exact ⟨(is_in_allowed_dirs_congr hroots p) ▸ h, hroots⟩
  · rw [if_neg h]
    refine ⟨?_, sameRoots_trans hroots (sameRoots_copy2 _ _ _)⟩
    unfold is_in_allowed_dirs
    rw [hroots.2.2]
    have := htmp (basename p)
    rw [Bool.or_eq_true]
    exact Or.inr this

theorem ensure_in_allowed_dir_allowed {fs g : FS} (hroots : sameRoots fs g)
    (htmp : TempHonest fs) (p : Str) :
    ((ensure_in_allowed_dir g p).1 = [] ∨
      is_in_allowed_dirs fs (ensure_in_allowed_dir g p).1 = true) ∧
      sameRoots fs (ensure_in_allowed_dir g p).2 := by
  unfold ensure_in_allowed_dir
  by_cases h0 : g.isfile p = false
  · rw [if_pos h0]
    exact ⟨Or.inl rfl, hroots⟩
  · rw [if_neg h0]
    by_cases h : is_in_allowed_dir g p = true
    · rw [if_pos h]
      rw [is_in_allowed_dir, is_in_allowed_dirs_congr hroots p] at h
      exact ⟨Or.inr h, hroots⟩
    · rw [if_neg h]
      refine ⟨Or.inr ?_, sameRoots_trans hroots (sameRoots_copy2 _ _ _)⟩
      unfold is_in_allowed_dirs
      rw [hroots.2.2]
      rw [Bool.or_eq_true]
      exact Or.inr (htmp (basename p))

theorem process_path_roots {fs g : FS} (hroots : sameRoots fs g) (net : Net) (p : Str) :
    ∀ r g', process_path g net p = .ok (r, g') → sameRoots fs g' := by
  intro r g' h
  unfold process_path at h
  by_cases hu : is_url p = true
  · rw [if_pos hu] at h
    unfold download_file at h
    by_cases hok : (net.resp p).okStatus = true
    · rw [if_pos hok] at h
      simp only [Except.map] at h
      injection h with h
      injection h with _ h2
      exact h2 ▸ sameRoots_trans hroots (sameRoots_writeFile _ _ _)
    · rw [if_neg hok] at h
      simp [Except.map] at h
  · rw [if_neg hu] at h
    by_cases hf : is_valid_local_file g p = true
    · rw [if_pos hf] at h
      injection h with h
      injection h with _ h2
      exact h2 ▸ hroots
    · rw [if_neg hf] at h
      injection h with h
      injection h with _ h2
      exact h2 ▸ hroots

/-- Main containment invariant for the batch loop: a successful `processAll`
run returns only paths contained (with respect to the original roots) in
the working or temp directory, and leaves the roots unchanged. -/
theorem processAll_allowed {fs : FS} (net : Net) (htmp : TempHonest fs) :
    ∀ (l : List Str) (g : FS), sameRoots fs g →
      ∀ ps fsN, processAll net g l = .ok (ps, fsN) →
        (∀ p ∈ ps, is_in_allowed_dirs fs p = true) ∧ sameRoots fs fsN := by
  intro l
  induction l with
  | nil =>
    intro g hroots ps fsN h
    unfold processAll at h
    injection h with h
    injection h with h1 h2
    subst h1 h2
    exact ⟨by simp, hroots⟩
  | cons p rest ih =>
    intro g hroots ps fsN h
    unfold processAll at h
    rcases hpp : process_path g net p with _ | ⟨r, g'⟩
    · rw [hpp] at h; exact absurd h (by simp)
    · rw [hpp] at h
      have hg' : sameRoots fs g' := process_path_roots hroots net p r g' hpp
      rcases r with _ | lp
      · exact ih g' hg' ps fsN h
      · simp only at h
        rcases hrec : processAll net (ensure_in_temp g' lp).2 rest with _ | ⟨ps', fsN'⟩
        · rw [hrec] at h; exact absurd h (by simp)
        · rw [hrec] at h
          injection h with h
          injection h with h1 h2
          subst h1 h2
          have hens := ensure_in_temp_allowed hg' htmp lp
          have := ih _ hens.2 ps' fsN' hrec
          refine ⟨?_, this.2⟩
          intro q hq
          rcases List.mem_cons.1 hq with rfl | hq
          · exact hens.1
          · exact this.1 q hq

/-- Draining download parts keeps the roots and keeps the running
`local_path` either empty or contained; progress yields carry no media
paths. -/
theorem drainParts_allowed {fs : FS} (htmp : TempHonest fs) :
    ∀ (parts : List DLPart) (g : FS) (lp : Str), sameRoots fs g →
      (lp = [] ∨ is_in_allowed_dirs fs lp = true) →
      (loadedPaths (drainParts g lp parts).1 = [] ∧
        ((drainParts g lp parts).2.1 = [] ∨
          is_in_allowed_dirs fs (drainParts g lp parts).2.1 = true) ∧
        sameRoots fs (drainParts g lp parts).2.2) := by
  intro parts
  induction parts with
  | nil =>
    intro g lp hroots hlp
    exact ⟨rfl, hlp, hroots⟩
  | cons part rest ih =>
    intro g lp hroots hlp
    rcases part with ⟨d, t, tmp⟩ | p
    · have := ih g lp hroots hlp
      unfold drainParts loadedPaths
      simp only [List.filterMap_cons]
      by_cases ht : 0 < t
      · rw [if_pos ht]
        exact this
      · rw [if_neg ht]
        exact this
    · unfold drainParts
      have hens := ensure_in_allowed_dir_allowed hroots htmp p
      have := ih (ensure_in_allowed_dir g p).2 (ensure_in_allowed_dir g p).1 hens.2 hens.1
      unfold loadedPaths
      simp only [List.filterMap_cons]
      exact this

/-- The classification tail only returns the `local_path` it was given. -/
theorem targetTail_allowed {fs : FS} (g : FS) (lp : Str)
    (hlp : lp = [] ∨ is_in_allowed_dirs fs lp = true) :
    (∀ p ∈ loadedPaths (targetTail g lp).1, is_in_allowed_dirs fs p = true) ∧
      (∀ p, (targetTail g lp).2.1 = some p → is_in_allowed_dirs fs p = true) := by
  unfold targetTail
  by_cases h0 : lp = []
  · rw [if_pos h0]
    exact ⟨by intro p hp; simp [loadedPaths] at hp, by intro p hp; simp at hp⟩
  · rw [if_neg h0]
    have hal : is_in_allowed_dirs fs lp = true := by
      rcases hlp with h | h
      · exact absurd h h0
      · exact h
    by_cases h1 : is_image lp = true
    · rw [if_pos h1]
      constructor
      · intro p hp
        simp [loadedPaths] at hp
        exact hp ▸ hal
      · intro p hp
        injection hp with hp
        exact hp ▸ hal
    · rw [if_neg h1]
      by_cases h2 : is_video lp = true
      · rw [if_pos h2]
        by_cases h3 : oversizedCheck (g.getsize lp) = true
        · rw [if_pos h3]
          constructor
          · intro p hp
            simp [loadedPaths] at hp
            exact hp ▸ hal
          · intro p hp
            injection hp with hp
            exact hp ▸ hal
        · rw [if_neg h3]
          constructor
          · intro p hp
            simp [loadedPaths] at hp
            exact hp ▸ hal
          · intro p hp
            injection hp with hp
            exact hp ▸ hal
      · rw [if_neg h2]
        exact ⟨by intro p hp; simp [loadedPaths] at hp, by intro p hp; simp at hp⟩

theorem download_in_chunks_roots {fs : FS} {net : Net} {custom : Option Str} {url : Str}
    {parts : List DLPart} {fs' : FS}
    (h : download_in_chunks fs net custom url = .ok (parts, fs')) :
    sameRoots fs fs' := by
  unfold download_in_chunks at h
  by_cases hok : (net.resp url).okStatus = true
  · rw [if_pos hok] at h
    injection h with h
    injection h with _ h2
    exact h2 ▸ sameRoots_writeFile _ _ _
  · rw [if_neg hok] at h
    exact absurd h (by simp)

/-- Containment for the single-reference flow: every media path `targetGo`
yields or stores is in the working or temp directory. -/
theorem targetGo_allowed {fs : FS} (net : Net) (custom : Option Str)
    (htmp : TempHonest fs) (fr : Str) :
    ∀ es stored fsN, targetGo fs net custom fr = .ok (es, stored, fsN) →
      (∀ p ∈ loadedPaths es, is_in_allowed_dirs fs p = true) ∧
      (∀ p, stored = some p → is_in_allowed_dirs fs p = true) := by
  intro es stored fsN h
  unfold targetGo at h
  by_cases h0 : fr = []
  · rw [if_pos h0] at h
    injection h with h
    injection h with h1 h2
    injection h2 with h2 h3
    subst h1 h2
    exact ⟨by intro p hp; simp [loadedPaths] at hp, by intro p hp; simp at hp⟩
  · rw [if_neg h0] at h
    by_cases h1 : is_url fr = true
    · rw [if_pos h1] at h
      rcases hdl : download_in_chunks fs net custom fr with _ | ⟨parts, fs'⟩
      · rw [hdl] at h; exact absurd h (by simp)
      · rw [hdl] at h
        simp only at h
        injection h with h
        injection h with he h2
        injection h2 with hs h3
        have hroots' : sameRoots fs fs' := download_in_chunks_roots hdl
        have hdrain := drainParts_allowed htmp parts fs' [] hroots' (Or.inl rfl)
        have htail := targetTail_allowed (drainParts fs' [] parts).2.2
          (drainParts fs' [] parts).2.1 hdrain.2.1
        constructor
        · intro p hp
          rw [← he] at hp
          unfold loadedPaths at hp
          rw [List.filterMap_append] at hp
          rcases List.mem_append.1 hp with hp | hp
          · rw [show (drainParts fs' [] parts).1.filterMap _ =
                loadedPaths (drainParts fs' [] parts).1 from rfl, hdrain.1] at hp
            simp at hp
          · exact htail.1 p hp
        · intro p hp
          exact htail.2 p (hs ▸ hp)
    · rw [if_neg h1] at h
      simp only at h
      injection h with h
      injection h with he h2
      injection h2 with hs h3
      have hens := ensure_in_allowed_dir_allowed (sameRoots_refl fs) htmp fr
      have htail := targetTail_allowed (ensure_in_allowed_dir fs fr).2
        (ensure_in_allowed_dir fs fr).1 hens.1
      constructor
      · intro p hp
        exact htail.1 p (he ▸ hp)
      · intro p hp
        exact htail.2 p (hs ▸ hp)

/-- What the code actually guarantees instead of the claimed descendant
containment: every path either flow returns passes the code's own
string-`startswith` containment test `is_in_allowed_dirs` (given
`TempHonest`, i.e. entries placed directly under the temp directory
resolve under it).  This is strictly weaker than being a path-prefix
descendant of an allowed root — see `c1_prefix_escape`. -/
theorem updates_startswith_allowed (fs : FS) (net : Net) (custom : Option Str)
    (t : Str) (files : List (Option Str)) (tb : Str) (upload : Option Str)
    (htmp : TempHonest fs) :
    (∀ ps fsN, sourceUpdate fs net t files = .ok (ps, fsN) →
       ∀ p ∈ ps, is_in_allowed_dirs fs p = true) ∧
    (∀ es stored fsN, targetUpdate fs net custom tb upload = .ok (es, stored, fsN) →
       (∀ p ∈ loadedPaths es, is_in_allowed_dirs fs p = true) ∧
       (∀ p, stored = some p → is_in_allowed_dirs fs p = true)) := by
  constructor
  · intro ps fsN h p hp
    have := processAll_allowed net htmp (rawPaths t files) fs (sameRoots_refl fs) ps fsN h
    exact this.1 p hp
  · intro es stored fsN h
    unfold targetUpdate at h
    simp only at h
    exact targetGo_allowed net custom htmp _ es stored fsN h

/-- C1: the containment guard is a bare string-prefix test on realpaths, not
the claimed path-prefix-descendant test.  At the failing input — working
directory `/w`, temp `/t`, no download directory, existing file `/wx.jpg` —
both flows return `/wx.jpg` unmoved (the target flow even stores it as
`target_path`): its resolved path string-starts with the resolved root
`/w`, yet it is a descendant of neither `/w` nor `/t`, contradicting the
claim (and the guards' own docstrings, which promise paths located under
the allowed directories). -/
theorem c1_prefix_escape :
    sourceUpdate fsX netW2 "/wx.jpg".data [] = .ok (["/wx.jpg".data], fsX) ∧
    targetUpdate fsX netW2 none "/wx.jpg".data none =
      .ok ([.imageLoaded "/wx.jpg".data], some "/wx.jpg".data, fsX) ∧
    is_in_allowed_dirs fsX "/wx.jpg".data = true ∧
    isDescendant (fsX.realpath fsX.cwd) (fsX.realpath "/wx.jpg".data) = false ∧
    isDescendant (fsX.realpath fsX.tempdir) (fsX.realpath "/wx.jpg".data) = false :=
  ⟨rfl, rfl, rfl, by decide, by decide⟩

/-- C6: the oversize flag used by `target.update` holds exactly for sizes
strictly above 512 MiB; 512 MiB + 1 is oversized, exactly 512 MiB is
not. -/
theorem c6_oversize_threshold :
    (∀ n : Nat, oversizedCheck n = true ↔ 512 * 1024 * 1024 < n) ∧
    oversizedCheck (512 * 1024 * 1024 + 1) = true ∧
    oversizedCheck (512 * 1024 * 1024) = false := by
  refine ⟨fun n => ?_, by decide, by decide⟩
  unfold oversizedCheck FILE_SIZE_LIMIT
  exact decide_eq_true_iff

/-- C7: Remote ⇔ the lowercase form starts with `http://` or `https://`;
LocalExisting ⇔ not Remote and a regular file exists; LocalMissing
otherwise; and `process_path` acts exactly by this classification (it is a
total function of the environment — no failure outside the Remote download
branch). -/
theorem c7_classifier (fs : FS) (net : Net) (p : Str) :
    (classify fs p = .Remote ↔
      (startswith (lowerStr p) ("http://".data) ||
        startswith (lowerStr p) ("https://".data)) = true) ∧
    (classify fs p = .LocalExisting ↔
      (startswith (lowerStr p) ("http://".data) ||
        startswith (lowerStr p) ("https://".data)) = false ∧ fs.isfile p = true) ∧
    (classify fs p = .LocalMissing ↔
      (startswith (lowerStr p) ("http://".data) ||
        startswith (lowerStr p) ("https://".data)) = false ∧ fs.isfile p = false) ∧
    process_path fs net p =
      (match classify fs p with
       | .Remote => (download_file fs net p).map (fun r => (some r.1, r.2))
       | .LocalExisting => .ok (some p, fs)
       | .LocalMissing => .ok (none, fs)) := by
  have hu : (startswith (lowerStr p) ("http://".data) ||
      startswith (lowerStr p) ("https://".data)) = is_url p := rfl
  rw [hu]
  rcases hb : is_url p
  · rcases hf : fs.isfile p
    · simp [classify, process_path, is_valid_local_file, hb, hf]
    · simp [classify, process_path, is_valid_local_file, hb, hf]
  · simp [classify, process_path, is_valid_local_file, hb]

/-- C8: the ContainmentGuard prefers the existing path when contained and
otherwise copies — never moves or deletes: the original file still exists
afterwards, every existing file still exists, and the relocated copy
carries the original's content size.  Both guards (`source.ensure_in_temp`
and `target.ensure_in_allowed_dir`) are covered. -/
theorem c8_copy_not_move (fs : FS) (p : Str) (hp : fs.isfile p = true) :
    (is_in_allowed_dirs fs p = true → ensure_in_temp fs p = (p, fs)) ∧
    (is_in_allowed_dirs fs p = false →
      (ensure_in_temp fs p).1 = joinPath fs.tempdir (basename p) ∧
      (ensure_in_temp fs p).2.getsize (ensure_in_temp fs p).1 = fs.getsize p) ∧
    (∀ q, fs.isfile q = true → (ensure_in_temp fs p).2.isfile q = true) ∧
    (ensure_in_temp fs p).2.isfile p = true ∧
    (is_in_allowed_dir fs p = true → ensure_in_allowed_dir fs p = (p, fs)) ∧
    (is_in_allowed_dir fs p = false →
      (ensure_in_allowed_dir fs p).1 = joinPath fs.tempdir (basename p) ∧
      (ensure_in_allowed_dir fs p).2.getsize (ensure_in_allowed_dir fs p).1 =
        fs.getsize p) ∧
    (∀ q, fs.isfile q = true → (ensure_in_allowed_dir fs p).2.isfile q = true) ∧
    (ensure_in_allowed_dir fs p).2.isfile p = true := by
  have hnp : ¬fs.isfile p = false := by rw [hp]; simp
  by_cases hc : is_in_allowed_dirs fs p = true
  · have hc' : is_in_allowed_dir fs p = true := hc
    refine ⟨fun _ => ?_, fun hcc => absurd hc (by rw [hcc]; simp), ?_, ?_,
      fun _ => ?_, fun hcc => absurd hc' (by rw [hcc]; simp), ?_, ?_⟩
    · unfold ensure_in_temp; rw [if_pos hc]
    · intro q hq; unfold ensure_in_temp; rw [if_pos hc]; exact hq
    · unfold ensure_in_temp; rw [if_pos hc]; exact hp
    · unfold ensure_in_allowed_dir; rw [if_neg hnp, if_pos hc']
    · intro q hq; unfold ensure_in_allowed_dir; rw [if_neg hnp, if_pos hc']; exact hq
    · unfold ensure_in_allowed_dir; rw [if_neg hnp, if_pos hc']; exact hp
  · have hc0 : is_in_allowed_dirs fs p = false := by
      rcases h : is_in_allowed_dirs fs p
      · rfl
      · exact absurd h hc
    have hc0' : is_in_allowed_dir fs p = false := hc0
    have hc' : ¬is_in_allowed_dir fs p = true := by rw [hc0']; simp
    refine ⟨fun hcc => absurd hcc hc, fun _ => ?_, ?_, ?_,
      fun hcc => absurd hcc hc', fun _ => ?_, ?_, ?_⟩
    · unfold ensure_in_temp
      rw [if_neg hc]
      exact ⟨rfl, by unfold copy2 writeFile; simp⟩
    · intro q hq
      unfold ensure_in_temp
      rw [if_neg hc]
      unfold copy2 writeFile
      simp only
      by_cases hqd : q = joinPath fs.tempdir (basename p)
      · rw [if_pos hqd]
      · rw [if_neg hqd]; exact hq
    · unfold ensure_in_temp
      rw [if_neg hc]
      unfold copy2 writeFile
      simp only
      by_cases hqd : p = joinPath fs.tempdir (basename p)
      · rw [if_pos hqd]
      · rw [if_neg hqd]; exact hp
    · unfold ensure_in_allowed_dir
      rw [if_neg hnp, if_neg hc']
      exact ⟨rfl, by unfold copy2 writeFile; simp⟩
    · intro q hq
      unfold ensure_in_allowed_dir
      rw [if_neg hnp, if_neg hc']
      unfold copy2 writeFile
      simp only
      by_cases hqd : q = joinPath fs.tempdir (basename p)
      · rw [if_pos hqd]
      · rw [if_neg hqd]; exact hq
    · unfold ensure_in_allowed_dir
      rw [if_neg hnp, if_neg hc']
      unfold copy2 writeFile
      simp only
      by_cases hqd : p = joinPath fs.tempdir (basename p)
      · rw [if_pos hqd]
      · rw [if_neg hqd]; exact hp

/-- Witness for C8 at the concrete environment (the file is contained). -/
theorem c8_copy_not_move_witness :
    (is_in_allowed_dirs fsW1 "a.jpg".data = true →
      ensure_in_temp fsW1 "a.jpg".data = ("a.jpg".data, fsW1)) ∧
    (is_in_allowed_dirs fsW1 "a.jpg".data = false →
      (ensure_in_temp fsW1 "a.jpg".data).1 =
        joinPath fsW1.tempdir (basename "a.jpg".data) ∧
      (ensure_in_temp fsW1 "a.jpg".data).2.getsize
        (ensure_in_temp fsW1 "a.jpg".data).1 = fsW1.getsize "a.jpg".data) ∧
    (∀ q, fsW1.isfile q = true →
      (ensure_in_temp fsW1 "a.jpg".data).2.isfile q = true) ∧
    (ensure_in_temp fsW1 "a.jpg".data).2.isfile "a.jpg".data = true ∧
    (is_in_allowed_dir fsW1 "a.jpg".data = true →
      ensure_in_allowed_dir fsW1 "a.jpg".data = ("a.jpg".data, fsW1)) ∧
    (is_in_allowed_dir fsW1 "a.jpg".data = false →
      (ensure_in_allowed_dir fsW1 "a.jpg".data).1 =
        joinPath fsW1.tempdir (basename "a.jpg".data) ∧
      (ensure_in_allowed_dir fsW1 "a.jpg".data).2.getsize
        (ensure_in_allowed_dir fsW1 "a.jpg".data).1 = fsW1.getsize "a.jpg".data) ∧
    (∀ q, fsW1.isfile q = true →
      (ensure_in_allowed_dir fsW1 "a.jpg".data).2.isfile q = true) ∧
    (ensure_in_allowed_dir fsW1 "a.jpg".data).2.isfile "a.jpg".data = true :=
  c8_copy_not_move fsW1 "a.jpg".data (by decide)

theorem no_slash_append {s t : Str} (hs : '/' ∉ s) (ht : '/' ∉ t) :
    '/' ∉ s ++ t := by
  intro h
  rcases List.mem_append.1 h with h | h
  · exact hs h
  · exact ht h

/-- C9: both fetchers materialize the download into a temp file named
`unique stem ++ extension of the URL`, with `.tmp` when the URL has no
extension. -/
theorem c9_temp_naming (fs : FS) (net : Net) (custom : Option Str) (url : Str)
    (hok : (net.resp url).okStatus = true) (hstem : '/' ∉ net.freshStem url) :
    (∃ path fs', download_file fs net url = .ok (path, fs') ∧
       basename path =
         net.freshStem url ++
           (if splitextExt url = [] then ".tmp".data else splitextExt url)) ∧
    (∀ parts fs', download_in_chunks fs net custom url = .ok (parts, fs') →
       ∀ p, parts.getLast? = some (.done p) →
         basename p =
           net.freshStem url ++
             (if splitextExt url = [] then ".tmp".data else splitextExt url)) := by
  have hnoslash : '/' ∉ net.freshStem url ++ extOrTmp url :=
    no_slash_append hstem (no_slash_extOrTmp url)
  have hbase : ∀ d : Str,
      basename (joinPath d (net.freshStem url ++ extOrTmp url)) =
        net.freshStem url ++ extOrTmp url :=
    fun d => basename_joinPath hnoslash
  constructor
  · refine ⟨joinPath fs.tempdir (net.freshStem url ++ extOrTmp url),
      writeFile fs (joinPath fs.tempdir (net.freshStem url ++ extOrTmp url))
        (net.resp url).bodySize, ?_, hbase _⟩
    unfold download_file
    rw [if_pos hok]
  · intro parts fs' h p hlast
    unfold download_in_chunks at h
    rw [if_pos hok] at h
    injection h with h
    injection h with h1 h2
    rw [← h1, List.getLast?_concat] at hlast
    injection hlast with hlast
    injection hlast with hlast
    rw [← hlast]
    exact hbase _

/-- Witness for C9 at a concrete URL with an extension. -/
theorem c9_temp_naming_witness :
    (∃ path fs',
       download_file fsW1 netW1 "http://h/cat.png".data = .ok (path, fs') ∧
       basename path =
         netW1.freshStem "http://h/cat.png".data ++
           (if splitextExt "http://h/cat.png".data = [] then ".tmp".data
            else splitextExt "http://h/cat.png".data)) ∧
    (∀ parts fs',
       download_in_chunks fsW1 netW1 none "http://h/cat.png".data = .ok (parts, fs') →
       ∀ p, parts.getLast? = some (.done p) →
         basename p =
           netW1.freshStem "http://h/cat.png".data ++
             (if splitextExt "http://h/cat.png".data = [] then ".tmp".data
              else splitextExt "http://h/cat.png".data)) :=
  c9_temp_naming fsW1 netW1 none "http://h/cat.png".data (by decide) (by decide)

/-- C10: when an uploaded file (non-empty name) is supplied, `target.update`
is independent of the textbox reference — the result equals the run with an
empty textbox, so no fetch or validation is attempted on the textbox
value. -/
theorem c10_upload_priority (fs : FS) (net : Net) (custom : Option Str)
    (t : Str) (f : Str) (hf : f ≠ []) :
    targetUpdate fs net custom t (some f) = targetUpdate fs net custom [] (some f) := by
  unfold targetUpdate
  simp only [if_neg hf]

/-- Witness for C10 at a concrete upload and textbox value. -/
theorem c10_upload_priority_witness :
    targetUpdate fsW1 netW1 none "http://h/x.png".data (some "b.png".data) =
      targetUpdate fsW1 netW1 none [] (some "b.png".data) :=
  c10_upload_priority fsW1 netW1 none "http://h/x.png".data "b.png".data (by decide)

theorem downloadedValues_append (a b : List DLPart) :
    downloadedValues (a ++ b) = downloadedValues a ++ downloadedValues b :=
  List.filterMap_append a b _

theorem download_in_chunks_eq {fs : FS} {net : Net} {custom : Option Str} {url : Str}
    (hok : (net.resp url).okStatus = true) :
    download_in_chunks fs net custom url =
      .ok (progressParts (dlTmpPath fs net custom url) (dlTotal net url) 0
             (iterContent (net.resp url).bodySize) ++
             [.done (dlTmpPath fs net custom url)],
           writeFile fs (dlTmpPath fs net custom url)
             (iterContent (net.resp url).bodySize).sum) := by
  unfold download_in_chunks
  rw [if_pos hok]

/-- C4 (amended): the single-flow fetcher `download_in_chunks` does produce
one progress tuple per nonempty chunk of at most 256 KiB and then exactly
one terminal part with nothing after it; the batch-flow fetcher
`download_file` produces no progress events at all — only the final
path. -/
theorem c4_fetch_events (fs : FS) (net : Net) (custom : Option Str) (url : Str)
    (hok : (net.resp url).okStatus = true) :
    (∃ ps tmp fs',
       download_in_chunks fs net custom url = .ok (ps ++ [.done tmp], fs') ∧
       (∀ e ∈ ps, ∃ d, e = .chunk d (dlTotal net url) tmp) ∧
       ps.length = (iterContent (net.resp url).bodySize).length ∧
       (∀ c ∈ iterContent (net.resp url).bodySize, 0 < c ∧ c ≤ CHUNK_SIZE) ∧
       claimFetchShape (ps ++ [.done tmp]) tmp (dlTotal net url)
         (net.resp url).bodySize) ∧
    (∃ path fs', download_file_parts fs net url = .ok ([.done path], fs')) := by
  constructor
  · refine ⟨progressParts (dlTmpPath fs net custom url) (dlTotal net url) 0
        (iterContent (net.resp url).bodySize),
      dlTmpPath fs net custom url,
      writeFile fs (dlTmpPath fs net custom url)
        (iterContent (net.resp url).bodySize).sum,
      download_in_chunks_eq hok, ?_, ?_, iterContent_mem _, ?_⟩
    · intro e he
      exact progressParts_chunks _ 0 e he
    · exact progressParts_length _ (fun c hc => (iterContent_mem _ c hc).1) 0
    · exact ⟨iterContent (net.resp url).bodySize, iterContent_sum _,
        iterContent_mem _, rfl⟩
  · refine ⟨joinPath fs.tempdir (net.freshStem url ++ extOrTmp url),
      writeFile fs (joinPath fs.tempdir (net.freshStem url ++ extOrTmp url))
        (net.resp url).bodySize, ?_⟩
    unfold download_file_parts download_file
    rw [if_pos hok]
    rfl

/-- Witness for C4's amended statement at a concrete environment. -/
theorem c4_fetch_events_witness :
    (∃ ps tmp fs',
       download_in_chunks fsW1 netW1 none "http://h/cat.png".data =
         .ok (ps ++ [.done tmp], fs') ∧
       (∀ e ∈ ps, ∃ d,
         e = .chunk d (dlTotal netW1 "http://h/cat.png".data) tmp) ∧
       ps.length =
         (iterContent (netW1.resp "http://h/cat.png".data).bodySize).length ∧
       (∀ c ∈ iterContent (netW1.resp "http://h/cat.png".data).bodySize,
         0 < c ∧ c ≤ CHUNK_SIZE) ∧
       claimFetchShape (ps ++ [.done tmp]) tmp
         (dlTotal netW1 "http://h/cat.png".data)
         (netW1.resp "http://h/cat.png".data).bodySize) ∧
    (∃ path fs',
       download_file_parts fsW1 netW1 "http://h/cat.png".data =
         .ok ([.done path], fs')) :=
  c4_fetch_events fsW1 netW1 none "http://h/cat.png".data rfl

/-- Counterexample to C4 as stated: the batch-flow fetch of a 1 MiB resource
succeeds with no progress events at all — its trace, a lone terminal part,
does not have the claimed one-progress-event-per-chunk shape. -/
theorem c4_counterexample :
    (∃ fs', download_file_parts fsW1 netW4 "http://h/f.bin".data =
       .ok ([.done "/t/x.bin".data], fs')) ∧
    ¬claimFetchShape [.done "/t/x.bin".data] "/t/x.bin".data 1048576 1048576 := by
  constructor
  · exact ⟨_, rfl⟩
  · rintro ⟨chunks, hsum, hc, heq⟩
    rcases chunks with _ | ⟨c, cs⟩
    · simp at hsum
    · have hlen := congrArg List.length heq
      rw [List.length_append,
        progressParts_length (c :: cs) (fun x hx => (hc x hx).1) 0] at hlen
      simp at hlen

/-- C5: on a successful fetch of an `n`-byte body with known content length
`n`, the `downloaded` values of the progress tuples are non-decreasing and
the materialized file's size is `n`. -/
theorem c5_progress_monotone (fs : FS) (net : Net) (custom : Option Str)
    (url : Str) (n : Nat)
    (hok : (net.resp url).okStatus = true)
    (_hlen : (net.resp url).contentLength = some n)
    (hbody : (net.resp url).bodySize = n) :
    ∃ parts fs', download_in_chunks fs net custom url = .ok (parts, fs') ∧
      List.Chain' (fun a b => a ≤ b) (downloadedValues parts) ∧
      ∀ p, parts.getLast? = some (.done p) → fs'.getsize p = n := by
  refine ⟨progressParts (dlTmpPath fs net custom url) (dlTotal net url) 0
      (iterContent (net.resp url).bodySize) ++ [.done (dlTmpPath fs net custom url)],
    writeFile fs (dlTmpPath fs net custom url)
      (iterContent (net.resp url).bodySize).sum,
    download_in_chunks_eq hok, ?_, ?_⟩
  · rw [downloadedValues_append]
    rw [show downloadedValues [DLPart.done (dlTmpPath fs net custom url)] = [] from rfl]
    rw [List.append_nil]
    exact downloadedValues_progressParts_chain _ 0
  · intro p hp
    rw [List.getLast?_concat] at hp
    injection hp with hp
    injection hp with hp
    rw [← hp]
    unfold writeFile
    simp only
    rw [if_pos trivial, hbody]
    exact iterContent_sum n

/-- Witness for C5 at the 5-byte resource. -/
theorem c5_progress_monotone_witness :
    ∃ parts fs',
      download_in_chunks fsW1 netW5 none "http://h/f.bin".data = .ok (parts, fs') ∧
      List.Chain' (fun a b => a ≤ b) (downloadedValues parts) ∧
      ∀ p, parts.getLast? = some (.done p) → fs'.getsize p = 5 :=
  c5_progress_monotone fsW1 netW5 none "http://h/f.bin".data 5 rfl rfl rfl

/-- Counterexample to C2 as stated: a batch holding the valid local file
`a.jpg` and a remote reference whose fetch fails does not drop the failure
silently — the uncaught `raise_for_status` exception aborts the whole
batch, returning no entry even for the valid reference, although the valid
reference alone would succeed. -/
theorem c2_counterexample :
    sourceUpdate fsW1 netW2 "a.jpg, http://bad/x.png".data [] = .error () ∧
    sourceUpdate fsW1 netW2 "a.jpg".data [] = .ok (["a.jpg".data], fsW1) :=
  ⟨rfl, rfl⟩

theorem processAll_cons (net : Net) (fs : FS) (p : Str) (rest : List Str) :
    processAll net fs (p :: rest) =
      match process_path fs net p with
      | .error e => .error e
      | .ok (none, fs') => processAll net fs' rest
      | .ok (some lp, fs') =>
        match processAll net (ensure_in_temp fs' lp).2 rest with
        | .error e => .error e
        | .ok (ps, fsN) => .ok ((ensure_in_temp fs' lp).1 :: ps, fsN) := rfl

theorem processAll_cons_err (net : Net) (fs : FS) (p : Str) (rest : List Str)
    (h : process_path fs net p = .error ()) :
    processAll net fs (p :: rest) = .error () := by
  rw [processAll_cons, h]

theorem processAll_cons_none (net : Net) (fs : FS) (p : Str) (rest : List Str)
    (fs' : FS) (h : process_path fs net p = .ok (none, fs')) :
    processAll net fs (p :: rest) = processAll net fs' rest := by
  rw [processAll_cons, h]

theorem processAll_cons_some (net : Net) (fs : FS) (p : Str) (rest : List Str)
    (lp : Str) (fs' : FS) (h : process_path fs net p = .ok (some lp, fs')) :
    processAll net fs (p :: rest) =
      (processAll net (ensure_in_temp fs' lp).2 rest).map
        (fun x => ((ensure_in_temp fs' lp).1 :: x.1, x.2)) := by
  rw [processAll_cons, h]
  show (match processAll net (ensure_in_temp fs' lp).2 rest with
    | .error e => .error e
    | .ok (ps, fsN) => .ok ((ensure_in_temp fs' lp).1 :: ps, fsN)) =
    (processAll net (ensure_in_temp fs' lp).2 rest).map
      (fun x => ((ensure_in_temp fs' lp).1 :: x.1, x.2))
  rcases hrec : processAll net (ensure_in_temp fs' lp).2 rest with u | ⟨ps, fsN⟩
  · rfl
  · rfl

/-- C2 (amended): a LocalMissing reference is dropped silently and the rest
of the batch is processed (a batch with no failing fetches always returns a
result), but any remote reference whose fetch fails aborts the entire batch
with an error. -/
theorem c2_batch_abort (net : Net) :
    (∀ (fs : FS) (l : List Str),
       (∃ r ∈ l, is_url r = true ∧ (net.resp r).okStatus = false) →
       processAll net fs l = .error ()) ∧
    (∀ (fs : FS) (l : List Str),
       (∀ r ∈ l, is_url r = true → (net.resp r).okStatus = true) →
       ∃ ps fsN, processAll net fs l = .ok (ps, fsN)) ∧
    (∀ (fs : FS) (r : Str) (rs : List Str), is_url r = false → fs.isfile r = false →
       processAll net fs (r :: rs) = processAll net fs rs) ∧
    (∀ (fs : FS) (r : Str) (rs : List Str), is_url r = false → fs.isfile r = true →
       processAll net fs (r :: rs) =
         (processAll net (ensure_in_temp fs r).2 rs).map
           (fun x => ((ensure_in_temp fs r).1 :: x.1, x.2))) := by
  refine ⟨?_, ?_, ?_, ?_⟩
  · intro fs l
    induction l generalizing fs with
    | nil =>
      rintro ⟨r, hr, -⟩
      exact absurd hr (List.not_mem_nil r)
    | cons a rest ih =>
      rintro ⟨r, hr, hurl, hbad⟩
      rcases List.mem_cons.1 hr with rfl | hr
      · have hpp : process_path fs net r = .error () := by
          unfold process_path download_file
          rw [if_pos hurl, if_neg (by rw [hbad]; simp)]
          rfl
        unfold processAll
        rw [hpp]
      · rcases hpp : process_path fs net a with ⟨e⟩ | ⟨r0, g'⟩
        · unfold processAll
          rw [hpp]
        · rcases r0 with _ | lp
          · unfold processAll
            rw [hpp]
            exact ih g' ⟨r, hr, hurl, hbad⟩
          · unfold processAll
            rw [hpp]
            simp only
            rw [ih (ensure_in_temp g' lp).2 ⟨r, hr, hurl, hbad⟩]
  · intro fs l
    induction l generalizing fs with
    | nil =>
      intro _
      exact ⟨[], fs, rfl⟩
    | cons a rest ih =>
      intro hall
      have hrest : ∀ r ∈ rest, is_url r = true → (net.resp r).okStatus = true :=
        fun r hr => hall r (List.mem_cons_of_mem a hr)
      by_cases hu : is_url a = true
      · have hok := hall a (List.mem_cons_self a rest) hu
        have hpp : process_path fs net a =
            .ok (some (joinPath fs.tempdir (net.freshStem a ++ extOrTmp a)),
              writeFile fs (joinPath fs.tempdir (net.freshStem a ++ extOrTmp a))
                (net.resp a).bodySize) := by
          unfold process_path download_file
          rw [if_pos hu, if_pos hok]
          rfl
        unfold processAll
        rw [hpp]
        simp only
        obtain ⟨ps, fsN, hrec⟩ := ih _ hrest
        rw [hrec]
        exact ⟨_, _, rfl⟩
      · have hu' : is_url a = false := by
          rcases h : is_url a
          · rfl
          · exact absurd h hu
        by_cases hf : fs.isfile a = true
        · have hpp : process_path fs net a = .ok (some a, fs) := by
            unfold process_path is_valid_local_file
            rw [if_neg hu, if_pos hf]
          unfold processAll
          rw [hpp]
          simp only
          obtain ⟨ps, fsN, hrec⟩ := ih _ hrest
          rw [hrec]
          exact ⟨_, _, rfl⟩
        · have hf' : fs.isfile a = false := by
            rcases h : fs.isfile a
            · rfl
            · exact absurd h hf
          have hpp : process_path fs net a = .ok (none, fs) := by
            unfold process_path is_valid_local_file
            rw [if_neg hu, if_neg (by rw [hf']; simp)]
          unfold processAll
          rw [hpp]
          exact ih fs hrest
  · intro fs r rs h1 h2
    have hpp : process_path fs net r = .ok (none, fs) := by
      unfold process_path is_valid_local_file
      rw [if_neg (by rw [h1]; simp), if_neg (by rw [h2]; simp)]
    exact processAll_cons_none net fs r rs fs hpp
  · intro fs r rs h1 h2
    have hpp : process_path fs net r = .ok (some r, fs) := by
      unfold process_path is_valid_local_file
      rw [if_neg (by rw [h1]; simp), if_pos h2]
    exact processAll_cons_some net fs r rs r fs hpp

/-- Witness for C2's amended statement: the failing URL aborts; a batch with
a missing local file and a valid one still succeeds; the missing file is
skipped; the valid one contributes its entry. -/
theorem c2_batch_abort_witness :
    processAll netW2 fsW1 ["http://bad/x.png".data] = .error () ∧
    (∃ ps fsN, processAll netW2 fsW1 ["missing.jpg".data, "a.jpg".data] =
      .ok (ps, fsN)) ∧
    processAll netW2 fsW1 ("missing.jpg".data :: ["a.jpg".data]) =
      processAll netW2 fsW1 ["a.jpg".data] ∧
    processAll netW2 fsW1 ("a.jpg".data :: []) =
      (processAll netW2 (ensure_in_temp fsW1 "a.jpg".data).2 []).map
        (fun x => ((ensure_in_temp fsW1 "a.jpg".data).1 :: x.1, x.2)) := by
  refine ⟨?_, ?_, ?_, ?_⟩
  · exact (c2_batch_abort netW2).1 fsW1 _
      ⟨"http://bad/x.png".data, List.mem_cons_self _ _, rfl, rfl⟩
  · refine (c2_batch_abort netW2).2.1 fsW1 _ ?_
    intro r hr hu
    rcases List.mem_cons.1 hr with rfl | hr
    · exact absurd hu (by decide)
    · rcases List.mem_cons.1 hr with rfl | hr
      · exact absurd hu (by decide)
      · exact absurd hr (List.not_mem_nil r)
  · exact (c2_batch_abort netW2).2.2.1 fsW1 _ _ rfl rfl
  · exact (c2_batch_abort netW2).2.2.2 fsW1 _ _ rfl rfl

/-- Counterexample to C3 as stated: two textually different references that
resolve to the same absolute path (`a.jpg` and `./a.jpg`, both resolving to
`/w/a.jpg`) survive the textual dedup and yield two result entries, not
one. -/
theorem c3_counterexample :
    sourceUpdate fsW3 netW2 "a.jpg, ./a.jpg".data [] =
      .ok (["a.jpg".data, "./a.jpg".data], fsW3) ∧
    fsW3.realpath "a.jpg".data = fsW3.realpath "./a.jpg".data ∧
    "a.jpg".data ≠ "./a.jpg".data :=
  ⟨rfl, rfl, by decide⟩

/-- C3 (amended): the batch dedup is textual on the raw reference strings —
the processed list has no duplicate strings, keeps the (model's
first-occurrence determinization of `list(set ...)`) order of the original
reference list, drops nothing else, and the update processes exactly this
deduplicated list; references resolving to the same file but spelled
differently are not collapsed (see the counterexample). -/
theorem c3_textual_dedup (fs : FS) (net : Net) (t : Str) (files : List (Option Str)) :
    (rawPaths t files).Nodup ∧
    (rawPaths t files).Sublist (textboxPaths t ++ filePaths files) ∧
    (∀ r, r ∈ rawPaths t files ↔ r ∈ textboxPaths t ++ filePaths files) ∧
    sourceUpdate fs net t files = processAll net fs (rawPaths t files) :=
  ⟨dedupFirst_nodup _, dedupFirst_sublist _, fun _ => mem_dedupFirst, rfl⟩

end FaceFusion
